import Mathlib

/-!
Formal model of `great_leader.py`, the session-state quiz engine of an
Alexa voice skill: a pick-without-replacement selector over a static
catalog, a per-session quiz state machine accumulating answers across
turns, a fuzzy grader built on `difflib.get_close_matches`, and a
response composer.

Conventions of the embedding:
* Python lists become `List`, the session-attribute dict becomes the
  `QuizState` structure, and the mutable grading loop becomes a `foldl`
  over an explicit accumulator (`GAcc`).
* Python exceptions that escape a function become explicit error values
  (`Except`/`Option`); an uncaught `UnboundLocalError`, `TypeError` or
  `IndexError` is a `RuntimeErr` constructor.
* `random.randint(0, n-1)` is modelled by an oracle: the caller supplies
  a value which is reduced `% n`, so every in-range index is reachable
  and no out-of-range index is.
* Rendered speech is modelled algebraically: each `render_template`
  call (or literal string) becomes a constructor carrying exactly the
  arguments the code passes to the template.
-/

/-! ### Model of `difflib` (external stdlib dependency of the grader)

`difflib.get_close_matches(word, possibilities, n=3, cutoff=0.8)` keeps
the possibilities whose `SequenceMatcher` ratio against `word` reaches
the cutoff and returns the best three, best first.  The ratio is
`2*M/T` where `M` is the total size of the matching blocks found by
repeatedly taking the longest common block (ties resolved to the
earliest position in the first sequence, then in the second) and `T`
the total length of both sequences.  Ratios are compared exactly (as
rationals, via cross multiplication); `T = 0` gives ratio 1.0 as in
CPython.  The `real_quick_ratio`/`quick_ratio` pre-filters are upper
bounds of `ratio` and never change which possibilities pass, so they
are not modelled; `autojunk` only affects sequences of length ≥ 200 and
is likewise not modelled. -/

/-- Length of the longest common prefix of two character lists. -/
def commonPrefixLength : List Char → List Char → Nat
  | a :: as, b :: bs => if a = b then commonPrefixLength as bs + 1 else 0
  | _, _ => 0

/-- One step of the search for the longest matching block: candidate
start pair `ij` replaces the best `(i, j, k)` found so far only when
strictly longer, so iterating start pairs in lexicographic order keeps
the earliest maximal block, as `find_longest_match` documents. -/
def bestStep (a b : List Char) (best : Nat × Nat × Nat) (ij : Nat × Nat) : Nat × Nat × Nat :=
  let k := commonPrefixLength (a.drop ij.1) (b.drop ij.2)
  if best.2.2 < k then (ij.1, ij.2, k) else best

/-- Longest matching block `(i, j, k)` of two character lists:
`a.drop i` and `b.drop j` share a common prefix of length `k`, `k`
maximal, ties resolved to the smallest `i`, then to the smallest `j`
(the contract of `SequenceMatcher.find_longest_match` with no junk). -/
def longestMatchList (a b : List Char) : Nat × Nat × Nat :=
  ((List.range a.length).flatMap fun i => (List.range b.length).map fun j => (i, j)).foldl
    (bestStep a b) (0, 0, 0)

/-- Total size of the matching blocks of `a` and `b`
(`SequenceMatcher.get_matching_blocks`): take the longest matching
block, then recurse on the parts before and after it.  The fuel only
bounds the recursion depth; `matchSum` supplies enough for any input. -/
def matchSumF : Nat → List Char → List Char → Nat
  | 0, _, _ => 0
  | fuel + 1, a, b =>
    let m := longestMatchList a b
    if m.2.2 = 0 then 0
    else matchSumF fuel (a.take m.1) (b.take m.2.1) + m.2.2 +
         matchSumF fuel (a.drop (m.1 + m.2.2)) (b.drop (m.2.1 + m.2.2))

/-- Total matching-block size with sufficient fuel: each recursive call
strictly shortens the first list, so depth never exceeds `a.length`. -/
def matchSum (a b : List Char) : Nat := matchSumF (a.length + b.length + 1) a b

/-- Exact `SequenceMatcher(None, x, w).ratio()` as a fraction:
`(numerator, denominator) = (2*M, len(x) + len(w))`, with the CPython
special case that two empty sequences have ratio 1.0. -/
def ratioPair (x w : String) : Nat × Nat :=
  let t := x.length + w.length
  if t = 0 then (1, 1) else (2 * matchSum x.data w.data, t)

/-- Does `x` clear the 0.8 similarity cutoff against `w`?
`2*M/T >= 4/5` compared exactly by cross multiplication. -/
def cutoffOK (x w : String) : Bool :=
  let p := ratioPair x w
  4 * p.2 ≤ 5 * p.1

/-- Python 2 byte-wise string comparison `x < y` on character lists
(the strings graded here are ASCII, where byte and codepoint order
agree). -/
def pyStrLt : List Char → List Char → Bool
  | [], [] => false
  | [], _ :: _ => true
  | _ :: _, [] => false
  | a :: as, b :: bs => if a = b then pyStrLt as bs else decide (a.toNat < b.toNat)

/-- Ordering used by `heapq.nlargest` on the `(ratio, possibility)`
pairs built by `get_close_matches`: Python compares the tuples, so a
strictly larger ratio wins and equal ratios fall back to the string
comparison. -/
def scoreGt (x y : (Nat × Nat) × String) : Bool :=
  (y.1.1 * x.1.2 < x.1.1 * y.1.2) ||
    ((x.1.1 * y.1.2 = y.1.1 * x.1.2) && pyStrLt y.2.data x.2.data)

/-- Insert `x` into a descending-sorted list, after any element it does
not strictly beat; combined with `sortDescBy` this reproduces the
stable descending sort that `heapq.nlargest` performs. -/
def insertDescBy {α : Type} (gt : α → α → Bool) (x : α) : List α → List α
  | [] => [x]
  | y :: ys => if gt x y then x :: y :: ys else y :: insertDescBy gt x ys

/-- Stable descending sort by repeated insertion, elements taken in
their original order. -/
def sortDescBy {α : Type} (gt : α → α → Bool) (l : List α) : List α :=
  l.foldl (fun acc x => insertDescBy gt x acc) []

/-- Model of `difflib.get_close_matches(word, possibilities, n=3,
cutoff=0.8)`: the possibilities clearing the cutoff, best ratio first
(ties by Python tuple comparison, then original order), at most 3. -/
def get_close_matches (word : String) (possibilities : List String) : List String :=
  let result := (possibilities.filter fun x => cutoffOK x word).map fun x => (ratioPair x word, x)
  ((sortDescBy scoreGt result).take 3).map Prod.snd

/-! ### Content catalog and session state (`leadership_knowledge`,
`session.attributes`) -/

/-- One entry of a question's `answers` list; the grader reads its
`value` field (`elem['value']`). -/
structure AnswerSpec where
  value : String
deriving DecidableEq

/-- One entry of `leadership_knowledge['quiz']`. -/
structure QuizQuestion where
  question : String
  type : String
  answers : List AnswerSpec
deriving DecidableEq

/-- The `session.attributes['state']` dict written by
`init_quiz_state` and mutated by `manage_quiz_state`. -/
structure QuizState where
  context : String
  index : Nat
  type : String
  n_responses : Nat
  responses : List String
deriving DecidableEq

/-- Errors with which `init_quiz_state` can abort: an out-of-range
quiz index (Python `IndexError`) or the explicit
`ValueError("Unknown question type")`. -/
inductive InitError
  | indexOutOfRange
  | unknownQuestionType
deriving DecidableEq

/-- `init_quiz_state(session, i_quiz)`: computes `n_responses` from the
question's `type` (1 for `single_part`, `len(answers)` for
`multi_part`, otherwise `ValueError`) and stores the fresh quiz state
with an empty `responses` list. -/
def init_quiz_state (quiz : List QuizQuestion) (i_quiz : Nat) : Except InitError QuizState :=
  match quiz.get? i_quiz with
  | none => .error .indexOutOfRange
  | some q =>
    if q.type = "single_part" then .ok ⟨"quiz", i_quiz, q.type, 1, []⟩
    else if q.type = "multi_part" then .ok ⟨"quiz", i_quiz, q.type, q.answers.length, []⟩
    else .error .unknownQuestionType

/-! ### The grader (`check_answers`) -/

/-- The `graded` dict returned by `check_answers`: `correct` is the
Python dict modelled as an insertion-ordered association list,
`missing` is `None` or the non-empty list of unmatched answers. -/
structure Graded where
  correct : List (String × String)
  incorrect : List String
  missing : Option (List String)
deriving DecidableEq

/-- The loop state of `check_answers`: the `all_correct` flag, the
`graded['correct']` dict, the `graded['incorrect']` list, and the
shrinking `known_answers` pool. -/
structure GAcc where
  all_correct : Bool
  correct : List (String × String)
  incorrect : List String
  pool : List String
deriving DecidableEq

/-- Python dict assignment `d[k] = v` on the association-list model:
overwrite in place when the key is present, else append. -/
def dictInsert (m : List (String × String)) (k v : String) : List (String × String) :=
  if m.any fun p => p.1 == k then m.map fun p => if p.1 == k then (k, v) else p
  else m ++ [(k, v)]

/-- One iteration of the `for resp in response` loop of
`check_answers`: a close match consumes `matches[0]` from the pool and
records it under `resp`; no match marks `resp` incorrect and clears
`all_correct`. -/
def grade_step (s : GAcc) (resp : String) : GAcc :=
  match get_close_matches resp s.pool with
  | [] => { s with all_correct := false, incorrect := s.incorrect ++ [resp] }
  | m :: _ => { s with correct := dictInsert s.correct resp m, pool := s.pool.erase m }

/-- The whole grading loop of `check_answers`, starting from
`all_correct = True`, empty dict and lists, and the full answer pool. -/
def gradeAcc (responses known_answers : List String) : GAcc :=
  responses.foldl grade_step ⟨true, [], [], known_answers⟩

/-- `check_answers` stripped of session plumbing: grade `responses`
against `known_answers` and package the result exactly as the code
does (`missing` is set only when the leftover pool is non-empty). -/
def grade_responses (responses known_answers : List String) : Bool × Graded :=
  let s := gradeAcc responses known_answers
  (s.all_correct, ⟨s.correct, s.incorrect, if 0 < s.pool.length then some s.pool else none⟩)

/-- `check_answers(session)`: reads the quiz index and collected
responses from the session state and grades them against the values of
the question's answer list. -/
def check_answers (quiz : List QuizQuestion) (state : QuizState) : Option (Bool × Graded) :=
  (quiz.get? state.index).map fun q =>
    grade_responses state.responses (q.answers.map AnswerSpec.value)

/-! ### Response composer (`concatenate_text_items`, `process_answers`)
and the per-turn driver (`manage_quiz_state`,
`prompt_user_for_more_answers`) -/

/-- The speech `process_answers` returns: the literal affirmation
`"Great job! That is correct."`, the `incorrect_answer` template with
its `wrong_answer`/`correct_answer` arguments, or the
`incorrect_answers` template with its joined `wrong_answers` and
`correct_answers` strings. -/
inductive GradeSpeech
  | greatJob
  | incorrectAnswer (wrong_answer correct_answer : String)
  | incorrectAnswers (wrong_answers correct_answers : String)
deriving DecidableEq

/-- The speech a quiz turn returns: a grade summary followed by the
`continue` template, or the `need_one_more_answer` /
`need_more_answers(n_missing)` prompts. -/
inductive TurnSpeech
  | gradedWithContinue (g : GradeSpeech)
  | needOneMoreAnswer
  | needMoreAnswers (n_missing : Nat)
deriving DecidableEq

/-- Python runtime errors that escape the modelled functions:
`graded['missing'][0]` with `missing = None` (`TypeError`), an
out-of-range list index (`IndexError`), and the `speech` variable read
without having been assigned in `prompt_user_for_more_answers`
(`UnboundLocalError`). -/
inductive RuntimeErr
  | noneSubscript
  | indexOutOfRange
  | unboundLocalSpeech
deriving DecidableEq

deriving instance DecidableEq for Except

/-- The loop body of `concatenate_text_items`: `len` is the fixed
`len(items)`; the comparisons `i < len(items) - 2` and
`i == len(items) - 2` are over Python ints, hence taken in `Int`. -/
def cti_loop (len : Nat) : String → List (Nat × String) → String
  | acc, [] => acc
  | acc, (i, elem) :: rest =>
    let acc1 := acc ++ elem
    let acc2 :=
      if (i : Int) < (len : Int) - 2 then acc1 ++ ", "
      else if (i : Int) = (len : Int) - 2 then acc1 ++ ", and " else acc1
    cti_loop len acc2 rest

/-- `concatenate_text_items(items)`: the natural-language join built by
the `for i, elem in enumerate(items)` loop. -/
def concatenate_text_items (items : List String) : String :=
  cti_loop items.length "" items.enum

/-- Recursive characterization of the join loop, used to reason about
`concatenate_text_items` by structural induction: singleton verbatim,
a ", and " before a final second element, a ", " after every element
followed by at least two more. -/
def ctiRec : List String → String
  | [] => ""
  | [x] => x
  | [x, y] => x ++ ", and " ++ y
  | x :: y :: z :: rest => x ++ ", " ++ ctiRec (y :: z :: rest)

/-- `process_answers(session)`: grade and choose the reply.  When not
all correct and exactly one response was incorrect, the code renders
`incorrect_answer` with `graded['incorrect'][0]` and
`graded['missing'][0]` (crashing when `missing` is `None`); otherwise
it renders `incorrect_answers` with the joined incorrect responses and
the joined keys of the `graded['correct']` dict (the dict iterates its
keys; the model iterates them in insertion order). -/
def process_answers (quiz : List QuizQuestion) (state : QuizState) :
    Except RuntimeErr GradeSpeech :=
  match check_answers quiz state with
  | none => .error .indexOutOfRange
  | some (all_correct, graded) =>
    if all_correct then .ok .greatJob
    else if graded.incorrect.length = 1 then
      match graded.missing with
      | none => .error .noneSubscript
      | some [] => .error .indexOutOfRange
      | some (m :: _) => .ok (.incorrectAnswer (graded.incorrect.headD "") m)
    else
      .ok (.incorrectAnswers (concatenate_text_items graded.incorrect)
        (concatenate_text_items (graded.correct.map Prod.fst)))

/-- `prompt_user_for_more_answers(session)`: `n_missing` is the Python
int `n_responses - len(responses)`; only the branches `n_missing == 1`
and `n_missing > 1` assign `speech`, so any other value reaches
`question(speech)` with `speech` unbound. -/
def prompt_user_for_more_answers (state : QuizState) : Except RuntimeErr TurnSpeech :=
  let n_missing : Int := (state.n_responses : Int) - (state.responses.length : Int)
  if n_missing = 1 then .ok .needOneMoreAnswer
  else if 1 < n_missing then .ok (.needMoreAnswers n_missing.toNat)
  else .error .unboundLocalSpeech

/-- `manage_quiz_state(answers)`: extend the stored responses with the
new answers (the mutation happens before any branch, so the updated
state is returned alongside the outcome), then grade when the count
reaches `n_responses` and prompt for more answers otherwise. -/
def manage_quiz_state (quiz : List QuizQuestion) (state : QuizState) (answers : List String) :
    QuizState × Except RuntimeErr TurnSpeech :=
  let state1 := { state with responses := state.responses ++ answers }
  if state1.responses.length = state1.n_responses then
    (state1, (process_answers quiz state1).map TurnSpeech.gradedWithContinue)
  else
    (state1, prompt_user_for_more_answers state1)

/-! ### Pick-without-replacement selector (`get_tip_from_sess`,
`get_quiz_ques_from_sess`)

Both functions have the same shape: `randint(0, len(pool) - 1)` raises
`ValueError` on an empty pool, the handler refills the pool to
`range(catalogSize)` and the function retries itself.  With
`catalogSize = 0` the refill leaves the pool empty, so the retry
recurses on an unchanged state and never returns (CPython eventually
aborts with `RecursionError`); that argument pair is mapped to `none`
below, justified because the recursive call is at exactly the same
state.  Otherwise at most one refill happens before a successful
pick. -/

/-- `pool.pop(i)` with `i = randint(0, len(pool)-1)` modelled through
the oracle value `rv`: return the element at `rv % len(pool)` and the
pool without it. -/
def pickIdx (pool : List Nat) (rv : Nat) : Nat × List Nat :=
  let i := rv % pool.length
  (pool.getD i 0, pool.eraseIdx i)

/-- One call of `get_tip_from_sess`/`get_quiz_ques_from_sess`: pick
from the pool, refilling it to `range(size)` first when it is empty;
`none` marks the never-returning recursion of the empty catalog. -/
def pick_from_pool (pool : List Nat) (size : Nat) (r : Nat → Nat) : Option (Nat × List Nat) :=
  if pool.isEmpty then
    if size = 0 then none
    else some (pickIdx (List.range size) (r size))
  else some (pickIdx pool (r pool.length))

/-- A sequence of picks, one oracle value per pick: the served indices
in order, and the final pool. -/
def pickRun : List Nat → List Nat → Nat → Option (List Nat × List Nat)
  | [], pool, _ => some ([], pool)
  | rv :: rest, pool, size =>
    match pick_from_pool pool size fun _ => rv with
    | none => none
    | some (x, pool1) => (pickRun rest pool1 size).map fun q => (x :: q.1, q.2)

/-! ### Helper lemmas -/

/-- Unfolded form of `manage_quiz_state` with the `let`-bound mutated
state inlined. -/
theorem manage_quiz_state_eq (quiz : List QuizQuestion) (state : QuizState)
    (answers : List String) :
    manage_quiz_state quiz state answers =
      if (state.responses ++ answers).length = state.n_responses then
        ({ state with responses := state.responses ++ answers },
          (process_answers quiz { state with responses := state.responses ++ answers }).map
            TurnSpeech.gradedWithContinue)
      else
        ({ state with responses := state.responses ++ answers },
          prompt_user_for_more_answers { state with responses := state.responses ++ answers }) :=
  rfl

/-- Unfolded form of `prompt_user_for_more_answers` with the
`let`-bound `n_missing` inlined. -/
theorem prompt_user_eq (state : QuizState) :
    prompt_user_for_more_answers state =
      if ((state.n_responses : Int) - (state.responses.length : Int)) = 1 then
        .ok .needOneMoreAnswer
      else if 1 < ((state.n_responses : Int) - (state.responses.length : Int)) then
        .ok (.needMoreAnswers ((state.n_responses : Int) -
          (state.responses.length : Int)).toNat)
      else .error .unboundLocalSpeech :=
  rfl

/-- The grading loop only ever appends to `incorrect`, and the final
`all_correct` flag holds exactly when the loop added nothing to it. -/
theorem gradeAcc_incorrect_spec (rs : List String) : ∀ s : GAcc, ∃ d,
    (List.foldl grade_step s rs).incorrect = s.incorrect ++ d ∧
    (List.foldl grade_step s rs).all_correct = (s.all_correct && d.isEmpty) := by
  induction rs with
  | nil => intro s; exact ⟨[], by simp⟩
  | cons resp rest ih =>
    intro s
    rw [List.foldl_cons]
    obtain ⟨d, hd, ha⟩ := ih (grade_step s resp)
    cases h : get_close_matches resp s.pool with
    | nil =>
      have hinc : (grade_step s resp).incorrect = s.incorrect ++ [resp] := by
        simp [grade_step, h]
      have hac : (grade_step s resp).all_correct = false := by
        simp [grade_step, h]
      refine ⟨resp :: d, ?_, ?_⟩
      · rw [hd, hinc]; simp
      · rw [ha, hac]; simp
    | cons m ms =>
      have hinc : (grade_step s resp).incorrect = s.incorrect := by
        simp [grade_step, h]
      have hac : (grade_step s resp).all_correct = s.all_correct := by
        simp [grade_step, h]
      exact ⟨d, by rw [hd, hinc], by rw [ha, hac]⟩

/-- `prompt_user_for_more_answers` never produces a graded summary. -/
theorem prompt_not_graded (state : QuizState) (g : GradeSpeech) :
    prompt_user_for_more_answers state ≠ .ok (.gradedWithContinue g) := by
  rw [prompt_user_eq]
  split
  · simp
  · split <;> simp

/-! ### C1 -/

/-- C1 counterexample: the claim says `allCorrect` equals
`incorrect.isEmpty AND missing is empty`, and in particular that
`grade([], {"a","b"})` returns `allCorrect = false`.  The code never
consults `missing` when computing `all_correct`: on that very input it
returns `missing = ["a","b"]` together with `allCorrect = true`. -/
theorem c1_counterexample :
    (grade_responses [] ["a", "b"]).1 = true ∧
    (grade_responses [] ["a", "b"]).2.incorrect = [] ∧
    (grade_responses [] ["a", "b"]).2.missing = some ["a", "b"] := by decide

/-- C1 (amended): for every call `grade(submittedAnswers,
correctAnswers)`, the returned `allCorrect` flag equals
`incorrect.isEmpty()` alone — `missing` does not enter into it — and in
particular `grade([], {"a","b"})` returns `missing = {"a","b"}` with
`allCorrect = true`. -/
theorem c1_allCorrect_iff_no_incorrect (responses known : List String) :
    (grade_responses responses known).1 =
      (grade_responses responses known).2.incorrect.isEmpty ∧
    grade_responses [] ["a", "b"] = (true, ⟨[], [], some ["a", "b"]⟩) := by
  constructor
  · obtain ⟨d, hd, ha⟩ := gradeAcc_incorrect_spec responses ⟨true, [], [], known⟩
    unfold grade_responses gradeAcc
    simp only
    rw [hd, ha]
    simp
  · decide

/-! ### C2 -/

/-- C2 counterexample: the claim says `collectedAnswers.length <=
expectedCount` after every operation on a reachable quiz state.  The
state below is exactly what `startQuestion` produces for a
`single_part` question (`expectedCount = 1`), yet submitting a
two-answer batch (the `TwoAnswerIntent` handler) pushes the collected
count to 2 and the subsequent prompt crashes with `UnboundLocalError`
(`n_missing = -1` assigns no `speech`). -/
theorem c2_counterexample :
    init_quiz_state [⟨"q", "single_part", [⟨"a"⟩]⟩] 0 =
      .ok ⟨"quiz", 0, "single_part", 1, []⟩ ∧
    manage_quiz_state [⟨"q", "single_part", [⟨"a"⟩]⟩] ⟨"quiz", 0, "single_part", 1, []⟩
        ["x", "y"] =
      (⟨"quiz", 0, "single_part", 1, ["x", "y"]⟩, .error .unboundLocalSpeech) ∧
    ¬ (2 ≤ 1) := by decide

/-- C2 (amended): `submitAnswers` always appends the batch to
`collectedAnswers`; the bound `collectedAnswers.length <=
expectedCount` is preserved only when the batch itself does not
overshoot (`collected + new <= expected` — batch intents can exceed it,
after which the prompt step fails).  Grading triggers exactly when the
post-submission count equals `expectedCount`: the equality case hands
off to `process_answers`, and a graded outcome occurs only in that
case. -/
theorem c2_submission_and_grading_trigger (quiz : List QuizQuestion) (state : QuizState)
    (answers : List String) :
    (manage_quiz_state quiz state answers).1.responses = state.responses ++ answers ∧
    (state.responses.length + answers.length ≤ state.n_responses →
      (manage_quiz_state quiz state answers).1.responses.length ≤ state.n_responses) ∧
    (state.responses.length + answers.length = state.n_responses →
      (manage_quiz_state quiz state answers).2 =
        (process_answers quiz (manage_quiz_state quiz state answers).1).map
          TurnSpeech.gradedWithContinue) ∧
    (∀ g, (manage_quiz_state quiz state answers).2 = .ok (.gradedWithContinue g) →
      state.responses.length + answers.length = state.n_responses) := by
  have h1 : (manage_quiz_state quiz state answers).1.responses = state.responses ++ answers := by
    rw [manage_quiz_state_eq]
    split <;> rfl
  refine ⟨h1, ?_, ?_, ?_⟩
  · intro h
    rw [h1, List.length_append]
    exact h
  · intro h
    have hc : (state.responses ++ answers).length = state.n_responses := by
      rw [List.length_append]; exact h
    have hm : manage_quiz_state quiz state answers =
        ({ state with responses := state.responses ++ answers },
          (process_answers quiz { state with responses := state.responses ++ answers }).map
            TurnSpeech.gradedWithContinue) := by
      rw [manage_quiz_state_eq, if_pos hc]
    rw [hm]
  · intro g hg
    by_cases hc : (state.responses ++ answers).length = state.n_responses
    · rw [List.length_append] at hc
      exact hc
    · exfalso
      have hm : manage_quiz_state quiz state answers =
          ({ state with responses := state.responses ++ answers },
            prompt_user_for_more_answers
              { state with responses := state.responses ++ answers }) := by
        rw [manage_quiz_state_eq, if_neg hc]
      rw [hm] at hg
      exact prompt_not_graded _ g hg

/-- C2 witness: a single answer to a fresh single-part question reaches
the expected count and hands off to grading. -/
theorem c2_submission_and_grading_trigger_witness :
    (manage_quiz_state [⟨"q", "single_part", [⟨"a"⟩]⟩] ⟨"quiz", 0, "single_part", 1, []⟩
        ["a"]).2 =
      (process_answers [⟨"q", "single_part", [⟨"a"⟩]⟩]
          (manage_quiz_state [⟨"q", "single_part", [⟨"a"⟩]⟩] ⟨"quiz", 0, "single_part", 1, []⟩
            ["a"]).1).map TurnSpeech.gradedWithContinue :=
  (c2_submission_and_grading_trigger [⟨"q", "single_part", [⟨"a"⟩]⟩]
    ⟨"quiz", 0, "single_part", 1, []⟩ ["a"]).2.2.1 (by decide)

/-! ### C5 -/

/-- C5: `startQuestion(index)` sets `expectedCount` to 1 for a
`single_part` question and to `len(answers)` for a `multi_part` one,
resets `collectedAnswers` to empty (transitioning to the
awaiting-answers state with `context = "quiz"`), and fails with the
unknown-question-type error for every other kind value. -/
theorem c5_init_quiz_state_cases (quiz : List QuizQuestion) (i : Nat) (q : QuizQuestion)
    (hq : quiz.get? i = some q) :
    (q.type = "single_part" → init_quiz_state quiz i = .ok ⟨"quiz", i, q.type, 1, []⟩) ∧
    (q.type = "multi_part" →
      init_quiz_state quiz i = .ok ⟨"quiz", i, q.type, q.answers.length, []⟩) ∧
    (q.type ≠ "single_part" → q.type ≠ "multi_part" →
      init_quiz_state quiz i = .error .unknownQuestionType) := by
  refine ⟨?_, ?_, ?_⟩
  · intro ht
    unfold init_quiz_state
    rw [hq]
    simp [ht]
  · intro ht
    unfold init_quiz_state
    rw [hq]
    simp [ht]
  · intro h1 h2
    unfold init_quiz_state
    rw [hq]
    simp [h1, h2]

/-- C5 witness: a two-answer multi-part question yields
`expectedCount = 2` and empty collected answers. -/
theorem c5_init_quiz_state_cases_witness :
    init_quiz_state [⟨"q", "multi_part", [⟨"a"⟩, ⟨"b"⟩]⟩] 0 =
      .ok ⟨"quiz", 0, "multi_part", 2, []⟩ := by
  have h := c5_init_quiz_state_cases [⟨"q", "multi_part", [⟨"a"⟩, ⟨"b"⟩]⟩] 0
    ⟨"q", "multi_part", [⟨"a"⟩, ⟨"b"⟩]⟩ rfl
  simpa using h.2.1 rfl

/-! ### C6 -/

/-- C6: the claim says a pick on an empty catalog fails with a
`ContentUnavailable` configuration error.  The code has no such error:
the `ValueError` handler refills the pool to `range(0) = []` and calls
itself again on an unchanged state, so the recursion never returns a
value (CPython aborts the process with an uncaught `RecursionError`).
The `none` below is exactly that diverging argument pair, and the
second conjunct shows the refill leaves the empty pool empty. -/
theorem c6_empty_catalog_diverges :
    pick_from_pool [] 0 (fun _ => 0) = none ∧ List.range 0 = ([] : List Nat) :=
  ⟨rfl, rfl⟩

/-! ### C7 -/

/-- C7 counterexample: the claim says the single-correction sentence is
used when exactly one incorrect+missing PAIR exists, and the joined
form otherwise.  For a single-part question with two stored answers and
one wrong response, the report has one incorrect entry but two missing
entries — no single pair — yet the code still renders the
single-correction template, naming `missing[0] = "a"`, instead of the
joined-lists sentence the claim requires. -/
theorem c7_counterexample :
    check_answers [⟨"q", "single_part", [⟨"a"⟩, ⟨"b"⟩]⟩]
        ⟨"quiz", 0, "single_part", 1, ["z"]⟩ =
      some (false, ⟨[], ["z"], some ["a", "b"]⟩) ∧
    process_answers [⟨"q", "single_part", [⟨"a"⟩, ⟨"b"⟩]⟩]
        ⟨"quiz", 0, "single_part", 1, ["z"]⟩ =
      .ok (.incorrectAnswer "z" "a") ∧
    process_answers [⟨"q", "single_part", [⟨"a"⟩, ⟨"b"⟩]⟩]
        ⟨"quiz", 0, "single_part", 1, ["z"]⟩ ≠
      .ok (.incorrectAnswers (concatenate_text_items ["z"])
        (concatenate_text_items [])) := by decide

/-- C7 (amended): `composeGradeSummary` returns the fixed affirmation
when `allCorrect` holds; otherwise, when exactly one INCORRECT entry
exists (the code never checks how many are missing), a single-correction
sentence naming that wrong answer and the FIRST missing answer — and a
`TypeError` crash when `missing` is `None`; otherwise a sentence with
the natural join of the wrong answers and the natural join of the
correctly-matched submissions (the keys of the correct dict). -/
theorem c7_compose_grade_summary_cases (quiz : List QuizQuestion) (state : QuizState)
    (q : QuizQuestion) (ac : Bool) (g : Graded)
    (hq : quiz.get? state.index = some q)
    (hres : grade_responses state.responses (q.answers.map AnswerSpec.value) = (ac, g)) :
    (ac = true → process_answers quiz state = .ok .greatJob) ∧
    (ac = false → g.incorrect.length = 1 → ∀ m ms, g.missing = some (m :: ms) →
      process_answers quiz state = .ok (.incorrectAnswer (g.incorrect.headD "") m)) ∧
    (ac = false → g.incorrect.length = 1 → g.missing = none →
      process_answers quiz state = .error .noneSubscript) ∧
    (ac = false → g.incorrect.length ≠ 1 →
      process_answers quiz state = .ok (.incorrectAnswers (concatenate_text_items g.incorrect)
        (concatenate_text_items (g.correct.map Prod.fst)))) := by
  have hca : check_answers quiz state = some (ac, g) := by
    unfold check_answers
    rw [hq]
    simp [hres]
  refine ⟨?_, ?_, ?_, ?_⟩
  · intro h
    simp [process_answers, hca, h]
  · intro h1 h2 m ms hm
    simp [process_answers, hca, h1, h2, hm]
  · intro h1 h2 hm
    simp [process_answers, hca, h1, h2, hm]
  · intro h1 h2
    simp [process_answers, hca, h1, h2]

/-- C7 witness: one correct answer to a single-part question produces
the fixed affirmation. -/
theorem c7_compose_grade_summary_cases_witness :
    process_answers [⟨"q", "single_part", [⟨"a"⟩]⟩] ⟨"quiz", 0, "single_part", 1, ["a"]⟩ =
      .ok .greatJob := by
  have h := c7_compose_grade_summary_cases [⟨"q", "single_part", [⟨"a"⟩]⟩]
    ⟨"quiz", 0, "single_part", 1, ["a"]⟩ ⟨"q", "single_part", [⟨"a"⟩]⟩ true
    ⟨[("a", "a")], [], none⟩ rfl (by decide)
  exact h.1 rfl

/-! ### C8 -/

/-- C8: submitting zero answers while answers are still outstanding is
not an error: the collected answers are unchanged and the caller gets a
need-more-answers prompt — `need_one_more_answer` when exactly one is
missing, `need_more_answers(N)` when `N > 1` are missing. -/
theorem c8_empty_submission_prompts (quiz : List QuizQuestion) (state : QuizState)
    (h : state.responses.length < state.n_responses) :
    (manage_quiz_state quiz state []).1.responses = state.responses ∧
    (∃ t, (manage_quiz_state quiz state []).2 = Except.ok t) ∧
    (state.n_responses = state.responses.length + 1 →
      (manage_quiz_state quiz state []).2 = .ok .needOneMoreAnswer) ∧
    (state.responses.length + 1 < state.n_responses →
      (manage_quiz_state quiz state []).2 =
        .ok (.needMoreAnswers (state.n_responses - state.responses.length))) := by
  have hne : ¬ ((state.responses ++ []).length = state.n_responses) := by
    simp only [List.append_nil]
    omega
  have hm : manage_quiz_state quiz state [] =
      ({ state with responses := state.responses ++ [] },
        prompt_user_for_more_answers { state with responses := state.responses ++ [] }) := by
    rw [manage_quiz_state_eq, if_neg hne]
  have hst : ({ state with responses := state.responses ++ [] } : QuizState) = state := by
    simp
  rw [hm, hst]
  refine ⟨rfl, ?_, ?_, ?_⟩
  · rw [prompt_user_eq]
    rcases Nat.lt_or_ge (state.responses.length + 1) state.n_responses with hlt | hge
    · rw [if_neg (by omega), if_pos (by omega)]
      exact ⟨_, rfl⟩
    · have heq : state.n_responses = state.responses.length + 1 := by omega
      rw [if_pos (by omega)]
      exact ⟨_, rfl⟩
  · intro heq
    rw [prompt_user_eq]
    rw [if_pos (by omega)]
  · intro hlt
    rw [prompt_user_eq]
    rw [if_neg (by omega), if_pos (by omega)]
    have ht : ((state.n_responses : Int) - (state.responses.length : Int)).toNat =
        state.n_responses - state.responses.length := by omega
    rw [ht]

/-- C8 witness: one of three answers collected, an empty submission
prompts for the two still missing. -/
theorem c8_empty_submission_prompts_witness :
    (manage_quiz_state [] ⟨"quiz", 0, "multi_part", 3, ["a"]⟩ []).1.responses = ["a"] ∧
    (manage_quiz_state [] ⟨"quiz", 0, "multi_part", 3, ["a"]⟩ []).2 =
      .ok (.needMoreAnswers 2) := by
  have h := c8_empty_submission_prompts [] ⟨"quiz", 0, "multi_part", 3, ["a"]⟩ (by decide)
  exact ⟨h.1, by simpa using h.2.2.2 (by decide)⟩

/-! ### Helper lemmas about `get_close_matches` and the grading pool -/

/-- Membership in an insertion step of the descending sort. -/
theorem mem_insertDescBy {α : Type} (gt : α → α → Bool) (x : α) (l : List α) (y : α) :
    y ∈ insertDescBy gt x l ↔ y = x ∨ y ∈ l := by
  induction l with
  | nil => simp [insertDescBy]
  | cons z zs ih =>
    by_cases h : gt x z
    · simp [insertDescBy, h, List.mem_cons]
    · simp [insertDescBy, h, List.mem_cons, ih]
      tauto

/-- Membership in the fold underlying `sortDescBy`. -/
theorem mem_sortDescBy_aux {α : Type} (gt : α → α → Bool) (l : List α) (y : α) :
    ∀ acc, y ∈ l.foldl (fun acc x => insertDescBy gt x acc) acc ↔ y ∈ acc ∨ y ∈ l := by
  induction l with
  | nil => intro acc; simp
  | cons z zs ih =>
    intro acc
    rw [List.foldl_cons, ih, mem_insertDescBy]
    simp [List.mem_cons]
    tauto

/-- The descending sort permutes membership. -/
theorem mem_sortDescBy {α : Type} (gt : α → α → Bool) (l : List α) (y : α) :
    y ∈ sortDescBy gt l ↔ y ∈ l := by
  unfold sortDescBy
  rw [mem_sortDescBy_aux]
  simp

/-- Inserting adds one element to the length. -/
theorem length_insertDescBy {α : Type} (gt : α → α → Bool) (x : α) (l : List α) :
    (insertDescBy gt x l).length = l.length + 1 := by
  induction l with
  | nil => rfl
  | cons z zs ih => by_cases h : gt x z <;> simp [insertDescBy, h, ih]

/-- Length of the fold underlying `sortDescBy`. -/
theorem length_sortDescBy_aux {α : Type} (gt : α → α → Bool) (l : List α) :
    ∀ acc, (l.foldl (fun acc x => insertDescBy gt x acc) acc).length = acc.length + l.length := by
  induction l with
  | nil => intro acc; simp
  | cons z zs ih =>
    intro acc
    rw [List.foldl_cons, ih, length_insertDescBy]
    simp only [List.length_cons]
    omega

/-- The descending sort preserves length. -/
theorem length_sortDescBy {α : Type} (gt : α → α → Bool) (l : List α) :
    (sortDescBy gt l).length = l.length := by
  unfold sortDescBy
  rw [length_sortDescBy_aux]
  simp

/-- Every result of `get_close_matches` is one of the possibilities. -/
theorem gcm_subset (w : String) (l : List String) :
    ∀ x ∈ get_close_matches w l, x ∈ l := by
  intro x hx
  unfold get_close_matches at hx
  simp only [List.mem_map] at hx
  obtain ⟨p, hp, rfl⟩ := hx
  have hp2 : p ∈ sortDescBy scoreGt
      ((l.filter fun y => cutoffOK y w).map fun y => (ratioPair y w, y)) :=
    List.mem_of_mem_take hp
  rw [mem_sortDescBy] at hp2
  simp only [List.mem_map] at hp2
  obtain ⟨z, hz, hpz⟩ := hp2
  have hzl := List.mem_of_mem_filter hz
  rw [← hpz]
  exact hzl

/-- When some possibility clears the cutoff, `get_close_matches`
returns at least one match. -/
theorem gcm_ne_nil (w : String) (l : List String)
    (hx : ∃ x ∈ l, cutoffOK x w = true) : get_close_matches w l ≠ [] := by
  obtain ⟨x, hxl, hcut⟩ := hx
  have hmem : x ∈ l.filter fun y => cutoffOK y w := List.mem_filter.mpr ⟨hxl, hcut⟩
  have hlen : 0 < (l.filter fun y => cutoffOK y w).length :=
    List.length_pos.mpr (List.ne_nil_of_mem hmem)
  intro hc
  have hl0 := congrArg List.length hc
  unfold get_close_matches at hl0
  simp only at hl0
  rw [List.length_map, List.length_take, length_sortDescBy, List.length_map] at hl0
  simp only [List.length_nil] at hl0
  omega

/-- One grading step never grows the pool. -/
theorem grade_step_pool_subset (s : GAcc) (resp : String) :
    (grade_step s resp).pool ⊆ s.pool := by
  cases h : get_close_matches resp s.pool with
  | nil => simp [grade_step, h]
  | cons m ms =>
    simp only [grade_step, h]
    exact List.erase_subset _ _

/-- The whole grading loop never grows the pool. -/
theorem foldl_grade_pool_subset (rs : List String) :
    ∀ s : GAcc, (List.foldl grade_step s rs).pool ⊆ s.pool := by
  induction rs with
  | nil => intro s; simp
  | cons resp rest ih =>
    intro s
    rw [List.foldl_cons]
    exact fun x hx => grade_step_pool_subset s resp (ih (grade_step s resp) hx)

/-- One grading step keeps the pool duplicate-free. -/
theorem grade_step_pool_nodup (s : GAcc) (resp : String) (h : s.pool.Nodup) :
    (grade_step s resp).pool.Nodup := by
  cases hm : get_close_matches resp s.pool with
  | nil => simpa [grade_step, hm] using h
  | cons m ms => simpa [grade_step, hm] using h.erase m

/-- The whole grading loop keeps the pool duplicate-free. -/
theorem foldl_grade_pool_nodup (rs : List String) :
    ∀ s : GAcc, s.pool.Nodup → (List.foldl grade_step s rs).pool.Nodup := by
  induction rs with
  | nil => intro s h; simpa using h
  | cons resp rest ih =>
    intro s h
    rw [List.foldl_cons]
    exact ih _ (grade_step_pool_nodup s resp h)

/-! ### C4 -/

/-- C4: the grader matches one-to-one.  If, at any point of the
submission order, some pool entry clears the 0.8 cutoff for the current
submission, then `get_close_matches` returns a best match `m`, the
step records it into the correct dict under the submission and removes
it from the pool, and `m` never reappears in the pool at any later
step (so no later submission can match it again); in particular
`grade(["a","a"], {"a"})` yields `incorrect = ["a"]`, no missing
answers, and `allCorrect = false`. -/
theorem c4_one_to_one_consumption (known pre post : List String) (resp : String)
    (hnd : known.Nodup)
    (hex : ∃ x ∈ (gradeAcc pre known).pool, cutoffOK x resp = true) :
    (∃ m ms, get_close_matches resp (gradeAcc pre known).pool = m :: ms ∧
      (gradeAcc (pre ++ [resp]) known).correct =
        dictInsert (gradeAcc pre known).correct resp m ∧
      (gradeAcc (pre ++ [resp]) known).pool = (gradeAcc pre known).pool.erase m ∧
      m ∉ (gradeAcc (pre ++ resp :: post) known).pool) ∧
    grade_responses ["a", "a"] ["a"] = (false, ⟨[("a", "a")], ["a"], none⟩) := by
  constructor
  · have hne := gcm_ne_nil resp (gradeAcc pre known).pool hex
    cases hm : get_close_matches resp (gradeAcc pre known).pool with
    | nil => exact absurd hm hne
    | cons m ms =>
      have hstep_correct : (grade_step (gradeAcc pre known) resp).correct =
          dictInsert (gradeAcc pre known).correct resp m := by simp [grade_step, hm]
      have hstep_pool : (grade_step (gradeAcc pre known) resp).pool =
          (gradeAcc pre known).pool.erase m := by simp [grade_step, hm]
      have happ : gradeAcc (pre ++ [resp]) known = grade_step (gradeAcc pre known) resp := by
        unfold gradeAcc
        rw [List.foldl_append]
        rfl
      have hpool_nodup : (gradeAcc pre known).pool.Nodup :=
        foldl_grade_pool_nodup pre ⟨true, [], [], known⟩ hnd
      refine ⟨m, ms, rfl, by rw [happ, hstep_correct], by rw [happ, hstep_pool], ?_⟩
      have happ2 : gradeAcc (pre ++ resp :: post) known =
          List.foldl grade_step (grade_step (gradeAcc pre known) resp) post := by
        unfold gradeAcc
        rw [show pre ++ resp :: post = (pre ++ [resp]) ++ post from by simp,
          List.foldl_append, List.foldl_append]
        rfl
      rw [happ2]
      intro hmem
      have hsub := foldl_grade_pool_subset post (grade_step (gradeAcc pre known) resp) hmem
      rw [hstep_pool] at hsub
      exact absurd ((hpool_nodup.mem_erase_iff).mp hsub).1 (by simp)
  · decide

/-- C4 witness: grading `["a","a"]` against the one-answer pool
`["a"]`, the first submission consumes the pool entry and the second
cannot match it again. -/
theorem c4_one_to_one_consumption_witness :
    (∃ m ms, get_close_matches "a" (gradeAcc [] ["a"]).pool = m :: ms ∧
      (gradeAcc (([] : List String) ++ ["a"]) ["a"]).correct =
        dictInsert (gradeAcc [] ["a"]).correct "a" m ∧
      (gradeAcc (([] : List String) ++ ["a"]) ["a"]).pool =
        (gradeAcc [] ["a"]).pool.erase m ∧
      m ∉ (gradeAcc (([] : List String) ++ "a" :: ["a"]) ["a"]).pool) ∧
    grade_responses ["a", "a"] ["a"] = (false, ⟨[("a", "a")], ["a"], none⟩) :=
  c4_one_to_one_consumption ["a"] [] ["a"] "a" (by decide) ⟨"a", by decide, by decide⟩

/-! ### C10 -/

/-- C10 counterexample: the claim says the matched values together with
the missing entries account for exactly the original correct answers.
Submitting the same string twice against the pool `["ab","abc"]` makes
it match `"ab"` first and (fuzzily, ratio 0.8) `"abc"` second; the
second dict assignment `correct["ab"] = "abc"` overwrites the first, so
the consumed value `"ab"` is recorded nowhere: the report accounts only
for `["abc"]`, not a permutation of the original two answers. -/
theorem c10_counterexample :
    grade_responses ["ab", "ab"] ["ab", "abc"] = (true, ⟨[("ab", "abc")], [], none⟩) ∧
    ¬ (((grade_responses ["ab", "ab"] ["ab", "abc"]).2.correct.map Prod.snd ++
        (grade_responses ["ab", "ab"] ["ab", "abc"]).2.missing.getD []).Perm
      ["ab", "abc"]) := by decide

/-- Python dict assignment with a fresh key is an append. -/
theorem dictInsert_of_not_mem_keys (m : List (String × String)) (k v : String)
    (h : ∀ p ∈ m, p.1 ≠ k) : dictInsert m k v = m ++ [(k, v)] := by
  unfold dictInsert
  rw [if_neg]
  intro hc
  rw [List.any_eq_true] at hc
  obtain ⟨p, hp, hbeq⟩ := hc
  exact h p hp (by simpa using hbeq)

/-- Accounting invariant of the grading loop: starting from a
duplicate-free pool, with pairwise-distinct submissions none of which
is already a key of the correct dict, the recorded values together
with the leftover pool are a permutation of the recorded values plus
pool at entry. -/
theorem gradeAcc_perm (rs : List String) : ∀ s : GAcc,
    s.pool.Nodup → rs.Nodup → (∀ r ∈ rs, ∀ p ∈ s.correct, p.1 ≠ r) →
    ((List.foldl grade_step s rs).correct.map Prod.snd ++
      (List.foldl grade_step s rs).pool).Perm (s.correct.map Prod.snd ++ s.pool) := by
  induction rs with
  | nil => intro s _ _ _; exact List.Perm.refl _
  | cons resp rest ih =>
    intro s hpool hnd hkeys
    rw [List.foldl_cons]
    cases hm : get_close_matches resp s.pool with
    | nil =>
      have hc : (grade_step s resp).correct = s.correct := by simp [grade_step, hm]
      have hp : (grade_step s resp).pool = s.pool := by simp [grade_step, hm]
      have ihh := ih (grade_step s resp) (by rw [hp]; exact hpool) (List.nodup_cons.mp hnd).2
        (by intro r hr p hpp
            rw [hc] at hpp
            exact hkeys r (List.mem_cons_of_mem _ hr) p hpp)
      rw [hc, hp] at ihh
      exact ihh
    | cons m ms =>
      have hmem : m ∈ s.pool :=
        gcm_subset resp s.pool m (by rw [hm]; exact List.mem_cons_self _ _)
      have hresp_key : ∀ p ∈ s.correct, p.1 ≠ resp := fun p hp =>
        hkeys resp (List.mem_cons_self _ _) p hp
      have hdict : dictInsert s.correct resp m = s.correct ++ [(resp, m)] :=
        dictInsert_of_not_mem_keys _ _ _ hresp_key
      have hc : (grade_step s resp).correct = s.correct ++ [(resp, m)] := by
        simp [grade_step, hm, hdict]
      have hp : (grade_step s resp).pool = s.pool.erase m := by simp [grade_step, hm]
      have hresp_notin := (List.nodup_cons.mp hnd).1
      have hkeys2 : ∀ r ∈ rest, ∀ p ∈ (grade_step s resp).correct, p.1 ≠ r := by
        intro r hr p hpp
        rw [hc] at hpp
        rcases List.mem_append.mp hpp with h1 | h2
        · exact hkeys r (List.mem_cons_of_mem _ hr) p h1
        · have hps : p = (resp, m) := by simpa using h2
          rw [hps]
          exact fun hcontra => hresp_notin ((show resp = r from hcontra) ▸ hr)
      have ihh := ih (grade_step s resp) (by rw [hp]; exact hpool.erase m)
        (List.nodup_cons.mp hnd).2 hkeys2
      rw [hc, hp] at ihh
      refine ihh.trans ?_
      rw [List.map_append, List.append_assoc]
      exact List.Perm.append_left _ (by simpa using (List.perm_cons_erase hmem).symm)

/-- C10 (amended): for every call to grade whose submitted answers are
pairwise distinct (repeating a submission can overwrite an entry of the
correct dict, see the counterexample) and whose correct answers form a
set, the matched values recorded in the correct dict are pairwise
distinct elements of the original correct answers, and together with
the missing entries they are exactly (a permutation of) the original
correct answers. -/
theorem c10_accounting (responses known : List String)
    (hk : known.Nodup) (hr : responses.Nodup) :
    ((grade_responses responses known).2.correct.map Prod.snd).Nodup ∧
    (∀ v ∈ (grade_responses responses known).2.correct.map Prod.snd, v ∈ known) ∧
    ((grade_responses responses known).2.correct.map Prod.snd ++
      (grade_responses responses known).2.missing.getD []).Perm known := by
  have hperm := gradeAcc_perm responses ⟨true, [], [], known⟩ hk hr
    (by intro r hr2 p hp; simp at hp)
  have hmiss : ∀ l : List String, (if 0 < l.length then some l else none).getD [] = l := by
    intro l; cases l <;> simp
  have hc : (grade_responses responses known).2.correct = (gradeAcc responses known).correct :=
    rfl
  have hmg : (grade_responses responses known).2.missing.getD [] =
      (gradeAcc responses known).pool := hmiss _
  have hperm2 : ((gradeAcc responses known).correct.map Prod.snd ++
      (gradeAcc responses known).pool).Perm known := by
    unfold gradeAcc
    simpa using hperm
  refine ⟨?_, ?_, ?_⟩
  · rw [hc]
    exact (List.nodup_append.mp (hperm2.symm.nodup hk)).1
  · intro v hv
    rw [hc] at hv
    exact hperm2.mem_iff.mp (List.mem_append.mpr (Or.inl hv))
  · rw [hc, hmg]
    exact hperm2

/-- C10 witness: one submission against the two-answer set, the
matched value plus the one missing answer account for the set. -/
theorem c10_accounting_witness :
    ((grade_responses ["a"] ["a", "b"]).2.correct.map Prod.snd).Nodup ∧
    (∀ v ∈ (grade_responses ["a"] ["a", "b"]).2.correct.map Prod.snd, v ∈ ["a", "b"]) ∧
    ((grade_responses ["a"] ["a", "b"]).2.correct.map Prod.snd ++
      (grade_responses ["a"] ["a", "b"]).2.missing.getD []).Perm ["a", "b"] :=
  c10_accounting ["a"] ["a", "b"] (by decide) (by decide)

/-! ### C9 -/

/-- Unfolded equation of the join loop on a cons cell. -/
theorem cti_loop_cons (len : Nat) (acc : String) (i : Nat) (elem : String)
    (rest : List (Nat × String)) :
    cti_loop len acc ((i, elem) :: rest) =
      cti_loop len
        (if (i : Int) < (len : Int) - 2 then (acc ++ elem) ++ ", "
         else if (i : Int) = (len : Int) - 2 then (acc ++ elem) ++ ", and "
         else acc ++ elem) rest :=
  rfl

/-- The join loop over `enumFrom n l`, with `len` the total item count,
equals the accumulator followed by the recursive characterization. -/
theorem cti_loop_enumFrom (l : List String) : ∀ (n : Nat) (acc : String) (len : Nat),
    len = n + l.length →
    cti_loop len acc (List.enumFrom n l) = acc ++ ctiRec l := by
  induction l with
  | nil =>
    intro n acc len hlen
    simp [List.enumFrom, cti_loop, ctiRec, String.append_empty]
  | cons x rest ih =>
    intro n acc len hlen
    subst hlen
    rw [show List.enumFrom n (x :: rest) = (n, x) :: List.enumFrom (n + 1) rest from rfl,
      cti_loop_cons]
    cases rest with
    | nil =>
      rw [if_neg (by simp only [List.length_cons, List.length_nil]; try omega),
        if_neg (by simp only [List.length_cons, List.length_nil]; try omega),
        show List.enumFrom (n + 1) ([] : List String) = [] from rfl,
        show cti_loop (n + [x].length) (acc ++ x) [] = acc ++ x from rfl]
      rfl
    | cons y rest2 =>
      cases rest2 with
      | nil =>
        rw [if_neg (by simp only [List.length_cons, List.length_nil]; try omega),
          if_pos (by simp only [List.length_cons, List.length_nil]; try omega)]
        rw [ih (n + 1) ((acc ++ x) ++ ", and ") _
          (by simp only [List.length_cons, List.length_nil]; try omega)]
        rw [show ctiRec [y] = y from rfl, show ctiRec [x, y] = x ++ ", and " ++ y from rfl]
        simp [String.append_assoc]
      | cons z rest3 =>
        rw [if_pos (by simp only [List.length_cons, List.length_nil]; try omega)]
        rw [ih (n + 1) ((acc ++ x) ++ ", ") _
          (by simp only [List.length_cons, List.length_nil]; try omega)]
        rw [show ctiRec (x :: y :: z :: rest3) = x ++ ", " ++ ctiRec (y :: z :: rest3) from rfl]
        simp [String.append_assoc]

/-- `concatenate_text_items` agrees with its recursive
characterization. -/
theorem concatenate_eq_ctiRec (l : List String) : concatenate_text_items l = ctiRec l := by
  unfold concatenate_text_items
  rw [show l.enum = List.enumFrom 0 l from rfl,
    cti_loop_enumFrom l 0 "" l.length (by simp)]
  exact String.empty_append _

/-- C9: `joinNaturally` returns the single item verbatim for one
element, `A ++ ", and " ++ B` for exactly two elements (comma before
"and" even with two items), and for three or more items joins with
", " between all but the last pair and ", and " before the final item,
e.g. `["x","y","z"]` gives `"x, y, and z"`. -/
theorem c9_concatenate_text_items_spec :
    (∀ x : String, concatenate_text_items [x] = x) ∧
    (∀ a b : String, concatenate_text_items [a, b] = a ++ ", and " ++ b) ∧
    (∀ (x : String) (rest : List String), 2 ≤ rest.length →
      concatenate_text_items (x :: rest) = x ++ ", " ++ concatenate_text_items rest) ∧
    concatenate_text_items ["x", "y", "z"] = "x, y, and z" := by
  refine ⟨?_, ?_, ?_, by decide⟩
  · intro x
    rw [concatenate_eq_ctiRec]
    rfl
  · intro a b
    rw [concatenate_eq_ctiRec]
    rfl
  · intro x rest h
    rcases rest with _ | ⟨y, rest1⟩
    · simp at h
    rcases rest1 with _ | ⟨z, rest3⟩
    · simp at h
    rw [concatenate_eq_ctiRec, concatenate_eq_ctiRec]
    rfl

/-- C9 witness: the three-element join splits off its head with ", ". -/
theorem c9_concatenate_text_items_spec_witness :
    concatenate_text_items ["x", "y", "z"] = "x" ++ ", " ++ concatenate_text_items ["y", "z"] :=
  c9_concatenate_text_items_spec.2.2.1 "x" ["y", "z"] (by decide)

/-! ### Helper lemmas about the selector -/

/-- A pick from a non-empty pool serves an element of the pool and
leaves a pool that, together with the served element, is a permutation
of the original. -/
theorem pickIdx_perm (pool : List Nat) (rv : Nat) (h : pool ≠ []) :
    pool.Perm ((pickIdx pool rv).1 :: (pickIdx pool rv).2) := by
  have hlen : 0 < pool.length := List.length_pos.mpr h
  have hi : rv % pool.length < pool.length := Nat.mod_lt _ hlen
  have h1 : (pickIdx pool rv).1 = pool[rv % pool.length] := by
    unfold pickIdx
    simp only
    rw [List.getD_eq_getElem?_getD, List.getElem?_eq_getElem hi, Option.getD_some]
  have h2 : (pickIdx pool rv).2 =
      pool.take (rv % pool.length) ++ pool.drop (rv % pool.length + 1) := by
    unfold pickIdx
    simp only
    rw [List.eraseIdx_eq_take_drop_succ]
  rw [h1, h2]
  have heq : pool.take (rv % pool.length) ++
      pool[rv % pool.length] :: pool.drop (rv % pool.length + 1) = pool := by
    rw [← List.drop_eq_getElem_cons hi]
    exact List.take_append_drop _ _
  have hstart : pool.Perm (pool.take (rv % pool.length) ++
      pool[rv % pool.length] :: pool.drop (rv % pool.length + 1)) := by
    rw [heq]
  exact hstart.trans List.perm_middle

/-- The element served by a pick belongs to the pool. -/
theorem pickIdx_fst_mem (pool : List Nat) (rv : Nat) (h : pool ≠ []) :
    (pickIdx pool rv).1 ∈ pool :=
  (pickIdx_perm pool rv h).mem_iff.mpr (List.mem_cons_self _ _)

/-- As many picks as the pool holds drain it completely, serving
exactly the pool's elements (in some order). -/
theorem pickRun_exhaust (rs : List Nat) : ∀ (pool : List Nat) (size : Nat),
    rs.length = pool.length →
    ∃ picks, pickRun rs pool size = some (picks, []) ∧ pool.Perm picks := by
  induction rs with
  | nil =>
    intro pool size hlen
    have hp : pool = [] := List.length_eq_zero.mp hlen.symm
    subst hp
    exact ⟨[], rfl, List.Perm.refl _⟩
  | cons rv rest ih =>
    intro pool size hlen
    have hne : pool ≠ [] := by
      intro hc
      subst hc
      simp at hlen
    have hpf : pick_from_pool pool size (fun _ => rv) =
        some ((pickIdx pool rv).1, (pickIdx pool rv).2) := by
      unfold pick_from_pool
      rw [if_neg (by simpa [List.isEmpty_iff] using hne)]
    have hperm := pickIdx_perm pool rv hne
    have hlen2 : rest.length = (pickIdx pool rv).2.length := by
      have hl := hperm.length_eq
      simp only [List.length_cons] at hl hlen
      omega
    obtain ⟨picks1, hrun, hp1⟩ := ih (pickIdx pool rv).2 size hlen2
    refine ⟨(pickIdx pool rv).1 :: picks1, ?_, ?_⟩
    · simp [pickRun, hpf, hrun]
    · exact hperm.trans (List.Perm.cons _ hp1)

/-- Splitting a run of picks at a successful prefix. -/
theorem pickRun_append (xs : List Nat) : ∀ (ys pool : List Nat) (size : Nat)
    (picks final : List Nat),
    pickRun xs pool size = some (picks, final) →
    pickRun (xs ++ ys) pool size =
      (pickRun ys final size).map fun q => (picks ++ q.1, q.2) := by
  induction xs with
  | nil =>
    intro ys pool size picks final h
    simp [pickRun] at h
    obtain ⟨h1, h2⟩ := h
    subst h1
    subst h2
    cases hq : pickRun ys pool size with
    | none => simpa using hq
    | some q =>
      obtain ⟨a, b⟩ := q
      simpa using hq
  | cons rv rest ihx =>
    intro ys pool size picks final h
    rw [List.cons_append]
    cases hpf : pick_from_pool pool size (fun _ => rv) with
    | none => simp [pickRun, hpf] at h
    | some xp =>
      obtain ⟨x, pool1⟩ := xp
      simp only [pickRun, hpf] at h ⊢
      cases hr : pickRun rest pool1 size with
      | none => rw [hr] at h; simp at h
      | some q =>
        obtain ⟨picks1, final1⟩ := q
        rw [hr] at h
        simp at h
        obtain ⟨hp, hf⟩ := h
        subst hp
        subst hf
        rw [ihx ys pool1 size picks1 final1 hr]
        cases pickRun ys final1 size <;> simp

/-! ### C3 -/

/-- C3 counterexample: the claim quantifies over every pool state.  The
pool `[0]` of a size-2 catalog is reachable (first conjunct: one pick
from the full pool leaves it).  From it, three consecutive picks can
serve `[0, 0, 1]`: the repeat of index 0 happens at the second pick,
before index 1 has been served at all, refuting the claim that over
N+1 consecutive picks a repeat occurs only after all N indices have
been served. -/
theorem c3_counterexample :
    pickRun [1] (List.range 2) 2 = some ([1], [0]) ∧
    pickRun [0, 0, 0] [0] 2 = some ([0, 0, 1], []) ∧
    ¬ (List.take 2 [0, 0, 1]).Nodup ∧
    1 ∉ List.take 2 [0, 0, 1] := by decide

/-- C3 (amended): for every catalog of size `N >= 1` a pick never
fails, whatever the pool state (an empty pool is first refilled to
`range N`); and over the `N + 1` picks starting from the FULL pool
`range N` — the state at session start or immediately after a refill —
the first `N` picks are a permutation of all `N` indices and the final
pick repeats one of them, so a repeat occurs only after every index
has been served once. -/
theorem c3_pick_totality_and_pigeonhole :
    (∀ (pool : List Nat) (size : Nat) (r : Nat → Nat), 1 ≤ size →
      (pick_from_pool pool size r).isSome = true) ∧
    (∀ (N : Nat) (rs : List Nat), 1 ≤ N → rs.length = N + 1 →
      ∃ picks final, pickRun rs (List.range N) N = some (picks, final) ∧
        (picks.take N).Perm (List.range N) ∧
        ∀ x, picks.drop N = [x] → x ∈ picks.take N) := by
  constructor
  · intro pool size r hsize
    unfold pick_from_pool
    by_cases hp : pool.isEmpty
    · rw [if_pos hp, if_neg (by omega)]
      rfl
    · rw [if_neg hp]
      rfl
  · intro N rs hN hlen
    have hne : rs ≠ [] := by
      intro hc
      subst hc
      simp at hlen
    obtain ⟨rs1, rv, hsplit, hlen1⟩ : ∃ rs1 rv, rs = rs1 ++ [rv] ∧ rs1.length = N := by
      refine ⟨rs.dropLast, rs.getLast hne, (List.dropLast_append_getLast hne).symm, ?_⟩
      rw [List.length_dropLast]
      omega
    subst hsplit
    obtain ⟨picks1, hrun1, hperm1⟩ := pickRun_exhaust rs1 (List.range N) N
      (by rw [hlen1, List.length_range])
    have hplen : picks1.length = N := by
      have hl := hperm1.length_eq
      rw [List.length_range] at hl
      omega
    have hrange_ne : List.range N ≠ [] := by
      intro hc
      have hcl := congrArg List.length hc
      simp at hcl
      omega
    have hpf : pick_from_pool [] N (fun _ => rv) =
        some ((pickIdx (List.range N) rv).1, (pickIdx (List.range N) rv).2) := by
      unfold pick_from_pool
      rw [if_neg (show ¬ (N = 0) from by omega)]
      rfl
    have hrun2 : pickRun [rv] [] N =
        some ([(pickIdx (List.range N) rv).1], (pickIdx (List.range N) rv).2) := by
      simp [pickRun, hpf]
    have hall : pickRun (rs1 ++ [rv]) (List.range N) N =
        some (picks1 ++ [(pickIdx (List.range N) rv).1], (pickIdx (List.range N) rv).2) := by
      rw [pickRun_append rs1 [rv] (List.range N) N picks1 [] hrun1, hrun2]
      rfl
    refine ⟨picks1 ++ [(pickIdx (List.range N) rv).1], (pickIdx (List.range N) rv).2, hall,
      ?_, ?_⟩
    · rw [List.take_left' hplen]
      exact hperm1.symm
    · intro x hx
      rw [List.drop_left' hplen] at hx
      rw [List.take_left' hplen]
      have hx1 : (pickIdx (List.range N) rv).1 = x := by
        simpa using hx
      rw [← hx1]
      exact hperm1.mem_iff.mp (pickIdx_fst_mem _ _ hrange_ne)

/-- C3 witness: with a catalog of size 2, a pick from the empty pool
of a size-1 catalog succeeds, and three picks from the full pool serve
both indices before the single repeat. -/
theorem c3_pick_totality_and_pigeonhole_witness :
    (pick_from_pool [] 1 (fun _ => 0)).isSome = true ∧
    (∃ picks final, pickRun [0, 0, 0] (List.range 2) 2 = some (picks, final) ∧
      (picks.take 2).Perm (List.range 2) ∧
      ∀ x, picks.drop 2 = [x] → x ∈ picks.take 2) :=
  ⟨c3_pick_totality_and_pigeonhole.1 [] 1 (fun _ => 0) (by decide),
    c3_pick_totality_and_pigeonhole.2 2 [0, 0, 0] (by decide) (by decide)⟩

